import Mathlib

/-!
# Verification of the resig.js reactive core

A shallow embedding of the reactive-signal library (`src/core/signal.ts`,
`src/core/effect.ts` — shipped inside `src/react/adapter.ts` after the
separator — `src/algebras/time.ts`, `src/algebras/fetch.ts`,
`src/plugins/index.ts`, and the state-machine module) together with proofs
and refutations of the frozen specification claims.

Machine conventions of the embedding:
* JavaScript strict inequality `!==` on primitive values is modelled as
  decidable inequality `≠` on an arbitrary type with `DecidableEq`
  (floating-point `NaN` is outside the model).
* A JS `Error` object is modelled by its message `String`.
* Asynchronous callbacks (timer firings, promise resolutions, source
  emissions) are modelled as explicit events processed in program order
  by a step function translated from the corresponding handler closure.
-/

namespace Resig

/-! ## The base signal setter (`src/core/signal.ts`, `_set`, lines 46-51)

A signal cell is its current value together with the number of times
`notify()` has run.  `_set` compares the incoming value against the
current one with strict inequality; only on inequality does it store the
value and notify the subscriber set. -/

structure Sig (A : Type) where
  cur : A
  notifs : Nat
  deriving Repr, DecidableEq

/-- Translation of `_set` (signal.ts lines 46-51): `if (value !== current)
\x7b current = value; notify(); \x7d`. -/
def sigSet {A : Type} [DecidableEq A] (s : Sig A) (v : A) : Sig A :=
  if v ≠ s.cur then { cur := v, notifs := s.notifs + 1 } else s

/-! ## The finite state machine (`fsm`, state-machine module lines 130-149)

`fsm(initialState, transitions)` keeps a current state and a subscriber
set; `send(action)` looks up the first transition row whose `from`
matches the current state, whose `on` matches the action, and whose
optional guard passes; on a match it stores `to` and notifies, otherwise
it does nothing.  A guard `() => boolean` is modelled by the boolean it
returns (guards in scope are pure). -/

structure Transition (S A : Type) where
  from_ : S
  to_ : S
  on_ : A
  guard_ : Option Bool
  deriving Repr, DecidableEq

structure FsmState (S : Type) where
  current : S
  notifs : Nat
  deriving Repr, DecidableEq

/-- Translation of `getTransition` (fsm): `transitions.find(t => t.from ===
currentState && t.on === action && (!t.guard || t.guard()))`. -/
def getTransition {S A : Type} [DecidableEq S] [DecidableEq A]
    (transitions : List (Transition S A)) (current : S) (action : A) :
    Option (Transition S A) :=
  transitions.find? fun t =>
    t.from_ = current ∧ t.on_ = action ∧ (t.guard_.getD true = true)

/-- Translation of `send` (fsm lines 141-147): on a matching transition,
store `to` and notify; otherwise fall through. -/
def fsmSend {S A : Type} [DecidableEq S] [DecidableEq A]
    (transitions : List (Transition S A)) (s : FsmState S) (action : A) :
    FsmState S :=
  match getTransition transitions s.current action with
  | some t => { current := t.to_, notifs := s.notifs + 1 }
  | none => s

/-! ## A `map`-derived container (`src/core/signal.ts`, `map`, lines 29-39)

`c.map(f)` creates a derived signal seeded with `f(c.value())` and
subscribes to `c`; on every notification of `c` with value `v` the
handler pushes `f(v)` into the derived cell through its `_set`.  The
two-cell world below is the exact closure network built by one `map`
call; `setSource` is `c._set` followed by the synchronous notification
of the map subscriber. -/

structure MapWorld (A B : Type) where
  source : A
  derived : B
  deriving Repr, DecidableEq

def mkMapWorld {A B : Type} (f : A → B) (a : A) : MapWorld A B :=
  { source := a, derived := f a }

/-- One `_set` on the source: if the value changed, store it and run the
map handler, which pushes `f v` into the derived cell through the
derived `_set` (signal.ts lines 34-36 and 46-51). -/
def setSource {A B : Type} [DecidableEq A] [DecidableEq B]
    (f : A → B) (w : MapWorld A B) (v : A) : MapWorld A B :=
  if v ≠ w.source then
    let w1 : MapWorld A B := { w with source := v }
    if f v ≠ w1.derived then { w1 with derived := f v } else w1
  else w

def applyUpdates {A B : Type} [DecidableEq A] [DecidableEq B]
    (f : A → B) (w : MapWorld A B) (updates : List A) : MapWorld A B :=
  updates.foldl (setSource f) w

/-! ## Retry (`src/algebras/fetch.ts`, `retry` lines 39-63 and
`executeFetch` lines 114-130)

The tri-state fetch value and the retry loop.  The fetcher is modelled
as a function from the invocation index to `Except` (the always-failing
fetcher of claim C1 is `fun _ => .error e`).  `retry(n)` first constructs
`retryFetch = fetch(fetcher, deps)`; that construction runs
`executeFetch`, which synchronously invokes `fetcher()` once (fetch.ts
line 130 / 120).  It then starts `attemptFetch(n)`; each failing attempt
with `attemptsLeft > 0` schedules the next attempt after
`2^(n - attemptsLeft) * 1000` ms.  `RetryRun` records the fetcher
invocation count, the scheduled backoff delays in order, and the final
value of the returned fetch (with an always-failing fetcher the last
write is the final attempt's error write, which lands after the
construction-time error write). -/

structure AsyncState (A : Type) where
  data : Option A
  loading : Bool
  error : Option String
  deriving Repr, DecidableEq

structure RetryRun (A : Type) where
  calls : Nat
  delays : List Nat
  final : AsyncState A
  deriving Repr, DecidableEq

/-- Translation of `attemptFetch` (fetch.ts lines 42-59), accumulating
the invocation count and the scheduled backoff delays.  `callIdx`
numbers the fetcher invocations. -/
def attemptFetch {A : Type} (fetcher : Nat → Except String A) (n : Nat) :
    Nat → Nat → RetryRun A
  | attemptsLeft, callIdx =>
    match fetcher callIdx with
    | .ok d => { calls := 1, delays := [], final := ⟨some d, false, none⟩ }
    | .error e =>
      match attemptsLeft with
      | al + 1 =>
        let rest := attemptFetch fetcher n al (callIdx + 1)
        { calls := rest.calls + 1,
          delays := 2 ^ (n - (al + 1)) * 1000 :: rest.delays,
          final := rest.final }
      | 0 => { calls := 1, delays := [], final := ⟨none, false, some e⟩ }

/-- Translation of `retry(n)` (fetch.ts lines 39-62): the construction
`fetch(fetcher, deps)` invokes the fetcher once via `executeFetch`
(line 130), then `attemptFetch(n)` runs. -/
def retryCall {A : Type} (fetcher : Nat → Except String A) (n : Nat) :
    RetryRun A :=
  let run := attemptFetch fetcher n n 1
  { run with calls := run.calls + 1 }

/-! ## Timeout (`src/algebras/time.ts`, `timeout` method, lines 45-66)

`t.timeout(ms)` creates `timedOut` seeded with the source's current
value, a `hasCompleted` flag initialised to `false`, and a one-shot
timer.  The timer callback checks `!hasCompleted` and, if so, writes a
fresh `Error` value; note that it does NOT set `hasCompleted`.  The
source subscription handler checks `!hasCompleted` and, if so, sets
`hasCompleted`, clears the timer, and writes the emitted value.

The asynchronous interleaving is modelled as a list of events processed
in order: `timer` is the firing of the scheduled timeout callback (it is
a no-op once the timer has been cleared or has already fired), `emit v`
is a source notification carrying `v`.  The carried value is
`A ⊕ String`: `.inl` a source value, `.inr` an Error message. -/

inductive TEvent (A : Type) where
  | timer
  | emit (v : A)
  deriving Repr, DecidableEq

structure TimeoutState (A : Type) where
  value : A ⊕ String
  hasCompleted : Bool
  timerAlive : Bool
  deriving Repr, DecidableEq

def timeoutMsg (ms : Nat) : String :=
  "Timeout after " ++ toString ms ++ "ms"

def mkTimeout {A : Type} (a0 : A) : TimeoutState A :=
  { value := .inl a0, hasCompleted := false, timerAlive := true }

/-- Translation of the two callbacks installed by `timeout(ms)`
(time.ts lines 50-54 and 57-63). -/
def timeoutStep {A : Type} (ms : Nat) (s : TimeoutState A) :
    TEvent A → TimeoutState A
  | .timer =>
    if s.timerAlive then
      let s1 := { s with timerAlive := false }
      if ¬ s1.hasCompleted then { s1 with value := .inr (timeoutMsg ms) }
      else s1
    else s
  | .emit v =>
    if ¬ s.hasCompleted then
      { value := .inl v, hasCompleted := true, timerAlive := false }
    else s

def runTimeout {A : Type} (ms : Nat) (a0 : A) (evs : List (TEvent A)) :
    TimeoutState A :=
  evs.foldl (timeoutStep ms) (mkTimeout a0)

/-! ## Cache (`src/algebras/fetch.ts`, `cache` lines 65-105)

`cache(key, ttl)` first constructs `cached = fetch(fetcher, deps)`
(line 67); the construction runs `executeFetch` (line 130), whose
synchronous prefix writes `\x7bloading:true\x7d` and invokes `fetcher()`
once before suspending on the promise.  Then the persistent store is
read; when both entries are present (and truthy, i.e. non-empty) and the
stored timestamp is younger than `ttl`, the cached value is written into
`cached` and `cached` is returned without installing the
base-to-cached mirror subscription; otherwise the mirror subscription
(lines 92-102) is installed and `cached` is returned still loading.
`localStorage` is modelled as `String → Option String`; `JSON.parse`
and `parseInt` are the external parameters `parseData` and
`parseTime`. -/

/-- The value a freshly constructed fetch holds after the synchronous
prefix of `executeFetch` (fetch.ts line 119): `\x7bloading:true\x7d`. -/
def fetchConstructValue {A : Type} : AsyncState A := ⟨none, true, none⟩

/-- The number of fetcher invocations the construction of
`fetch(fetcher, deps)` performs synchronously (fetch.ts line 120,
reached from line 130): exactly one. -/
def fetchConstructCalls : Nat := 1

structure CacheOutcome (A : Type) where
  fetcherCalls : Nat
  returned : AsyncState A
  mirrored : Bool
  deriving Repr, DecidableEq

/-- Translation of `cache(key, ttl)` (fetch.ts lines 65-105). -/
def cacheCall {A : Type} (store : String → Option String)
    (parseData : String → A) (parseTime : String → Int)
    (key : String) (ttl : Int) (now : Int) : CacheOutcome A :=
  let calls := fetchConstructCalls
  let cachedVal : AsyncState A := fetchConstructValue
  let cacheKey := "fetch_cache_" ++ key
  let cacheTimeKey := "fetch_cache_time_" ++ key
  match store cacheKey, store cacheTimeKey with
  | some cachedData, some cacheTime =>
    if cachedData ≠ "" ∧ cacheTime ≠ "" then
      let age := now - parseTime cacheTime
      if age < ttl then
        { fetcherCalls := calls,
          returned := ⟨some (parseData cachedData), false, none⟩,
          mirrored := false }
      else
        { fetcherCalls := calls, returned := cachedVal, mirrored := true }
    else
      { fetcherCalls := calls, returned := cachedVal, mirrored := true }
  | some _, none =>
    { fetcherCalls := calls, returned := cachedVal, mirrored := true }
  | none, _ =>
    { fetcherCalls := calls, returned := cachedVal, mirrored := true }

/-! ## Bind (`src/core/effect.ts`, `bind`, effect module lines 197-213)

`m.bind(f)` evaluates `f(m.value())` once, reads its value to seed the
result effect, and discards the inner effect without subscribing to it.
Only inside the source subscription handler — which runs on emissions
occurring after the bind call — does it subscribe to the freshly
produced inner effect.  `f` is modelled as a pure constructor: each call
creates a fresh inner effect whose initial value is `fSeed` of the
argument (matching the claim's "the inner Effect f(m.value()) created to
seed the result").

The world records the base value, the store of inner-effect cells in
creation order (index 0 is the seed inner), the indices of the inner
cells the bind handler has subscribed to the result, and the result
value.  Events: `emitBase v` is a `_set` on the source `m`; `setInner i
v` is a `_set` on the `i`-th inner effect. -/

inductive BEvent (A B : Type) where
  | emitBase (v : A)
  | setInner (i : Nat) (v : B)
  deriving Repr, DecidableEq

structure BindWorld (A B : Type) where
  base : A
  inners : List B
  subscribed : List Nat
  result : B
  deriving Repr, DecidableEq

/-- The state right after `m.bind(f)` (effect.ts line 199): the seed
inner has been created and read, the result seeded with its value, and
no inner subscription installed. -/
def mkBindWorld {A B : Type} (a : A) (fSeed : A → B) : BindWorld A B :=
  { base := a, inners := [fSeed a], subscribed := [], result := fSeed a }

/-- Translation of the handlers of `bind` (effect.ts lines 202-210) and
of the inner effects' `_set` (signal.ts lines 46-51). -/
def bindStep {A B : Type} [DecidableEq A] [DecidableEq B]
    (fSeed : A → B) (w : BindWorld A B) : BEvent A B → BindWorld A B
  | .emitBase v =>
    if v ≠ w.base then
      { base := v,
        inners := w.inners ++ [fSeed v],
        subscribed := w.subscribed ++ [w.inners.length],
        result := fSeed v }
    else w
  | .setInner i v =>
    if h : i < w.inners.length then
      if v ≠ w.inners.get ⟨i, h⟩ then
        { w with inners := w.inners.set i v,
                 result := if i ∈ w.subscribed then v else w.result }
      else w
    else w

def runBind {A B : Type} [DecidableEq A] [DecidableEq B]
    (a : A) (fSeed : A → B) (events : List (BEvent A B)) : BindWorld A B :=
  events.foldl (bindStep fSeed) (mkBindWorld a fSeed)

/-- Recogniser for events that only mutate the seed inner effect
(index 0) — the scenario of claim C10 in which the source `m` never
emits again. -/
def isSeedInnerSet {A B : Type} : BEvent A B → Bool
  | .setInner 0 _ => true
  | _ => false

/-! ## The filter plugin (`src/plugins/index.ts`, `filterPlugin`,
lines 73-75)

`filterPlugin(predicate)(signal)` is
`signal.map(value => predicate(value) ? value : signal.value())`.
The closure's fallback branch reads `signal.value()` when the map
handler runs — which is after `_set` has already stored the new value
(signal.ts line 48 stores, line 49 notifies) — so the fallback returns
the just-stored value itself.  The world is the same two-cell network as
for `map`. -/

/-- The seed of the filter-derived cell: `map` evaluates the closure at
the current value `a`, for which `signal.value()` is still `a`. -/
def mkFilterWorld {A : Type} (p : A → Bool) (a : A) : MapWorld A A :=
  { source := a, derived := if p a then a else a }

/-- One `_set` on the source of a filter-plugin world: on a change the
stored value becomes `v` before the map subscriber runs, so the
closure `predicate(value) ? value : signal.value()` pushes `v` in both
branches. -/
def setSourceFilter {A : Type} [DecidableEq A]
    (p : A → Bool) (w : MapWorld A A) (v : A) : MapWorld A A :=
  if v ≠ w.source then
    let w1 : MapWorld A A := { w with source := v }
    let pushed := if p v then v else w1.source
    if pushed ≠ w1.derived then { w1 with derived := pushed } else w1
  else w

def applyFilterUpdates {A : Type} [DecidableEq A]
    (p : A → Bool) (a0 : A) (updates : List A) : MapWorld A A :=
  updates.foldl (setSourceFilter p) (mkFilterWorld p a0)

/-! ## A general signal graph (for `sequence`, effect module lines
245-250, built on `bind` lines 197-213 and `map`, signal.ts lines 29-39)

`sequence(effects)` left-folds `acc.bind(arr => curr.map(val =>
[...arr, val]))` over the effect array, starting from `pureEffect([])`.
To reason about the whole network this builds — base cells, the
accumulator effects, the map-derived inner effects, and the
subscriptions among them — we embed the signal heap explicitly: a world
is a store of cells (allocation appends) plus the list of installed
subscriptions in installation order.

A subscription is one of the three handler closures the core installs:
* `mapSub src tgt g` — `map`'s handler (signal.ts 34-36): on an
  emission `v` of `src`, push `g v` into `tgt` through `_set`;
* `bindBase src result f` — `bind`'s source handler (effect.ts
  202-210): on an emission `v` of `src`, evaluate `f v` (which may
  allocate new cells and subscriptions), push its value into `result`,
  then subscribe `result` to it with a `bindInner`;
* `bindInner src result` — `bind`'s inner handler (effect.ts 207-209):
  on an emission `v` of `src`, push `v` into `result`.

The effect returned by a `bind` callback is described by an `EffExpr`:
a fresh effect, a reference to an existing cell, or a `map` over an
existing cell (the shape `sequence`'s callbacks have).

`_set` (signal.ts 46-51) stores the value on strict inequality and then
notifies the cell's subscribers in installation order, depth-first;
`fuel` bounds the re-notification depth (every theorem below holds for
every fuel).  The pending list is the cell's subscriber list at
notification start; in all worlds considered here no handler subscribes
to the cell currently notifying, so this agrees with JS `Set.forEach`. -/

inductive EffExpr (V : Type) where
  | freshE (v : V)
  | cellRef (i : Nat)
  | mapOf (src : Nat) (g : V → V)

inductive Sub (V : Type) where
  | mapSub (src tgt : Nat) (g : V → V)
  | bindBase (src result : Nat) (f : V → EffExpr V)
  | bindInner (src result : Nat)

def Sub.src {V : Type} : Sub V → Nat
  | .mapSub s _ _ => s
  | .bindBase s _ _ => s
  | .bindInner s _ => s

structure World (V : Type) where
  cells : List V
  subs : List (Sub V)

def World.get {V : Type} [Inhabited V] (w : World V) (i : Nat) : V :=
  w.cells.getD i default

/-- `signal(v)` / `effect(v)`: allocate a fresh cell. -/
def World.alloc {V : Type} (w : World V) (v : V) : Nat × World V :=
  (w.cells.length, { w with cells := w.cells ++ [v] })

def World.addSub {V : Type} (w : World V) (s : Sub V) : World V :=
  { w with subs := w.subs ++ [s] }

/-- Evaluate a bind callback's result: `freshE` is `effect(v)`,
`cellRef` an existing effect, `mapOf` is `src.map(g)` — a fresh derived
cell seeded with `g(src.value())` plus a `mapSub` (signal.ts 29-39). -/
def evalExpr {V : Type} [Inhabited V] (w : World V) :
    EffExpr V → Nat × World V
  | .freshE v => w.alloc v
  | .cellRef i => (i, w)
  | .mapOf src g =>
    let (i, w1) := w.alloc (g (w.get src))
    (i, w1.addSub (.mapSub src i g))

mutual

/-- `_set` (signal.ts 46-51): on strict inequality, store and notify
the cell's subscribers in installation order. -/
def setCell {V : Type} [Inhabited V] [DecidableEq V]
    (fuel : Nat) (w : World V) (i : Nat) (v : V) : World V :=
  match fuel with
  | 0 => w
  | f + 1 =>
    if v = w.get i then w
    else
      let w1 : World V := { w with cells := w.cells.set i v }
      runSubs f w1 (w1.subs.filter (fun s => s.src == i)) v
termination_by (fuel, 0, 0)

def runSubs {V : Type} [Inhabited V] [DecidableEq V]
    (fuel : Nat) (w : World V) (pending : List (Sub V)) (v : V) : World V :=
  match pending with
  | [] => w
  | s :: rest => runSubs fuel (runSub fuel w s v) rest v
termination_by (fuel, 2, pending.length)

/-- Run one subscriber closure on an emitted value `v`. -/
def runSub {V : Type} [Inhabited V] [DecidableEq V]
    (fuel : Nat) (w : World V) (s : Sub V) (v : V) : World V :=
  match s with
  | .mapSub _ tgt g => setCell fuel w tgt (g v)
  | .bindInner _ result => setCell fuel w result v
  | .bindBase _ result f =>
    let (inner, w1) := evalExpr w (f v)
    let w2 := setCell fuel w1 result (w1.get inner)
    w2.addSub (.bindInner inner result)
termination_by (fuel, 1, 0)

end

/-! ### The `sequence` network

The values flowing through a `sequence` network are either input-effect
values (`A`) or accumulator arrays (`List A`). -/

abbrev SeqVal (A : Type) : Type := Sum A (List A)

instance {A : Type} : Inhabited (SeqVal A) := ⟨.inr []⟩

/-- The callback closure `val => [...arr, val]` captured with array
`arr` (effect module line 247); its argument is always an input-effect
value, so the other shapes are unreachable junk. -/
def push {A : Type} (arr : SeqVal A) (v : SeqVal A) : SeqVal A :=
  match arr, v with
  | .inr l, .inl a => .inr (l ++ [a])
  | _, _ => .inr []

/-- One `reduce` step of `sequence`:
`acc.bind(arr => curr.map(val => [...arr, val]))` (effect module lines
246-249).  Per `bind` (lines 197-213): evaluate the callback at
`acc.value()` — a `map` over `curr` whose closure captures the current
array — read the derived cell's value to seed the freshly allocated
result effect, and subscribe `acc` with the `bindBase` handler.  The
seed inner cell itself is not subscribed. -/
def seqBindStep {A : Type} [DecidableEq A]
    (p : Nat × World (SeqVal A)) (currId : Nat) : Nat × World (SeqVal A) :=
  let accId := p.1
  let w := p.2
  let arr := w.get accId
  let (innerId, w1) := evalExpr w (.mapOf currId (push arr))
  let (resId, w2) := w1.alloc (w1.get innerId)
  (resId, w2.addSub (.bindBase accId resId
    (fun arr2 => .mapOf currId (push arr2))))

/-- `sequence(effects)`: the input effects are cells `0..k-1` holding
`vs`; `pureEffect([])` allocates the initial accumulator; the `reduce`
left-folds `seqBindStep` over the inputs in order. -/
def mkSeqWorld {A : Type} [DecidableEq A] (vs : List A) :
    Nat × World (SeqVal A) :=
  let w0 : World (SeqVal A) := { cells := vs.map .inl, subs := [] }
  let (acc0, w1) := w0.alloc (.inr [])
  (List.range vs.length).foldl seqBindStep (acc0, w1)

/-- Post-construction events: `_set`s on the input effects (emissions
of the underlying sources), each processed with its own notification
fuel. -/
def applySeqEvents {A : Type} [DecidableEq A]
    (w : World (SeqVal A)) (events : List (Nat × SeqVal A × Nat)) :
    World (SeqVal A) :=
  events.foldl (fun w e => setCell e.2.2 w e.1 e.2.1) w

/-- Events that are `_set`s on some inner effect (never on the base) of
a `BindWorld`. -/
def isInnerSet {A B : Type} : BEvent A B → Bool
  | .setInner _ _ => true
  | .emitBase _ => false

/-- No installed subscription listens on cell `t`. -/
def noSubsFrom {V : Type} (S : List (Sub V)) (t : Nat) : Prop :=
  ∀ s ∈ S, s.src ≠ t

/-- The shape a `sequence` network's subscription list has from the
point of view of the input cells `0..k-1` and the final result cell
`R`: every subscription listening on an input cell is a `map`
subscription whose derived target is a dead end distinct from `R`. -/
def SeqSubsOK {V : Type} (k R : Nat) (S : List (Sub V)) : Prop :=
  ∀ s ∈ S, s.src < k →
    ∃ src t g, s = Sub.mapSub src t g ∧ t ≠ R ∧ noSubsFrom S t

/-- Invariant of the subscription list along the `sequence`
construction fold: map subscriptions listen on input cells and target
dead-end inner cells distinct from the running accumulator; bind-base
subscriptions listen on accumulator cells (index ≥ k); no bind-inner
subscription exists. -/
def ConsSubsOK {V : Type} (k len accId : Nat) (S : List (Sub V)) : Prop :=
  ∀ s ∈ S,
    (∃ src t g, s = Sub.mapSub src t g ∧ src < k ∧ k ≤ t ∧ t < len
      ∧ t ≠ accId ∧ noSubsFrom S t)
    ∨ (∃ src r f, s = Sub.bindBase src r f ∧ k ≤ src ∧ src < len)

/-- Full invariant along the `sequence` construction fold, after `m`
of the `reduce` steps. -/
def ConsInv {A : Type} (vs : List A) (m : Nat)
    (p : Nat × World (SeqVal A)) : Prop :=
  p.2.cells.length = vs.length + 1 + 2 * m
    ∧ (∃ extra, p.2.cells = vs.map Sum.inl ++ extra)
    ∧ p.2.get p.1 = .inr (vs.take m)
    ∧ vs.length ≤ p.1 ∧ p.1 < p.2.cells.length
    ∧ ConsSubsOK vs.length p.2.cells.length p.1 p.2.subs

end Resig

namespace Resig

/-! ### Theorems: C3, C8, C4, C1 -/

/-- C3: the setter notifies subscribers (the notification counter
increments) if and only if the new value differs from the current value
under the modelled strict inequality; otherwise it notifies zero times.
Setting the same value twice in a row leaves the second set a complete
no-op, so the two sets together produce at most one notification and the
second produces none. -/
theorem c3_set_notifies_iff_changed {A : Type} [DecidableEq A]
    (s : Sig A) (v : A) :
    ((sigSet s v).notifs = s.notifs + 1 ↔ v ≠ s.cur)
      ∧ ((sigSet s v).notifs = s.notifs ↔ v = s.cur)
      ∧ sigSet (sigSet s v) v = sigSet s v
      ∧ (sigSet (sigSet s v) v).notifs ≤ s.notifs + 1 := by
  unfold sigSet
  by_cases h : v = s.cur <;> simp [h]

/-- C8: `send(action)` is a complete no-op — same current state, zero
notifications — whenever no transition row matches the current state,
the action, and its optional guard. -/
theorem c8_fsm_send_noop {S A : Type} [DecidableEq S] [DecidableEq A]
    (transitions : List (Transition S A)) (s : FsmState S) (action : A)
    (h : getTransition transitions s.current action = none) :
    fsmSend transitions s action = s := by
  unfold fsmSend
  rw [h]

/-- Witness for C8 at the concrete machine of the claim:
`fsm('idle', [\x7bfrom:'idle', to:'loading', on:'start'\x7d]).send('bogus')`
leaves the state `'idle'` and produces zero notifications. -/
theorem c8_fsm_send_noop_witness :
    getTransition [Transition.mk "idle" "loading" "start" none] "idle" "bogus"
        = none
      ∧ fsmSend [Transition.mk "idle" "loading" "start" none]
          ⟨"idle", 0⟩ "bogus" = ⟨"idle", 0⟩ := by
  refine ⟨by decide, ?_⟩
  exact c8_fsm_send_noop [Transition.mk "idle" "loading" "start" none]
    ⟨"idle", 0⟩ "bogus" (by decide)

/-- The derived cell of a `map` world always holds `f` of the source:
`map` seeds it with `f(value())` and every source notification re-pushes
`f(newValue)`. -/
theorem setSource_preserves_invariant {A B : Type} [DecidableEq A]
    [DecidableEq B] (f : A → B) (w : MapWorld A B) (v : A)
    (h : w.derived = f w.source) :
    (setSource f w v).derived = f (setSource f w v).source := by
  unfold setSource
  by_cases hv : v = w.source
  · simpa [hv] using h
  · by_cases hf : f v = w.derived <;> simp [hv, hf]

theorem applyUpdates_invariant {A B : Type} [DecidableEq A] [DecidableEq B]
    (f : A → B) (a0 : A) (updates : List A) :
    (applyUpdates f (mkMapWorld f a0) updates).derived
      = f (applyUpdates f (mkMapWorld f a0) updates).source := by
  suffices h : ∀ (w : MapWorld A B), w.derived = f w.source →
      (updates.foldl (setSource f) w).derived
        = f (updates.foldl (setSource f) w).source by
    exact h (mkMapWorld f a0) rfl
  induction updates with
  | nil => intro w hw; simpa using hw
  | cons u rest ih =>
    intro w hw
    exact ih (setSource f w u) (setSource_preserves_invariant f w u hw)

/-- C4 (functor identity): after any sequence of updates applied through
the source's setter, the container derived by `map(identity)` holds
exactly the source's current value. -/
theorem c4_map_identity {A : Type} [DecidableEq A]
    (a0 : A) (updates : List A) :
    (applyUpdates id (mkMapWorld id a0) updates).derived
      = (applyUpdates id (mkMapWorld id a0) updates).source :=
  applyUpdates_invariant id a0 updates

/-- C1 counterexample: with a fetcher that rejects on every invocation,
`retry(2)` causes exactly four fetcher invocations, not three — the
construction of the returned Fetch instance (`fetch(fetcher, deps)` at
fetch.ts line 40) already runs `executeFetch`, which invokes the fetcher
once before `attemptFetch(2)` makes its 1 + 2 attempts. -/
theorem c1_retry_counterexample :
    (retryCall (fun _ => (.error "boom" : Except String Nat)) 2).calls = 4
      ∧ ¬ (retryCall (fun _ => (.error "boom" : Except String Nat)) 2).calls
          = 3
      ∧ (retryCall (fun _ => (.error "boom" : Except String Nat)) 2).final
          = ⟨none, false, some "boom"⟩ := by
  refine ⟨rfl, by decide, rfl⟩

/-- C1 amended: for an always-failing fetcher, the Fetch returned by
`retry(2)` reaches the terminal value `\x7bloading:false, data:undefined,
error:<Error>\x7d`, the backoff delays scheduled between the attempts are
`2^(n-attemptsLeft)*1000` ms, i.e. `[1000, 2000]`, and the fetcher is
invoked exactly 4 times in total: one invocation from the construction of
the new Fetch instance plus 1 initial attempt and 2 retries. -/
theorem c1_retry_amended (e : String) :
    (retryCall (fun _ => (.error e : Except String Nat)) 2).calls = 4
      ∧ (retryCall (fun _ => (.error e : Except String Nat)) 2).delays
          = [1000, 2000]
      ∧ (retryCall (fun _ => (.error e : Except String Nat)) 2).final
          = ⟨none, false, some e⟩ := by
  refine ⟨rfl, ?_, rfl⟩
  show 2 ^ (2 - 2) * 1000 :: 2 ^ (2 - 1) * 1000 :: [] = [1000, 2000]
  norm_num

/-! ### Theorems: C2 -/

/-- Once the timeout result has completed (a source emission won), every
later event leaves its value unchanged and the flag set. -/
theorem timeoutStep_completed {A : Type} (ms : Nat) (s : TimeoutState A)
    (e : TEvent A) (h : s.hasCompleted = true) :
    (timeoutStep ms s e).value = s.value
      ∧ (timeoutStep ms s e).hasCompleted = true := by
  cases e with
  | timer =>
    by_cases ha : s.timerAlive <;> simp [timeoutStep, ha, h]
  | emit v => simp [timeoutStep, h]

theorem timeoutRun_completed {A : Type} (ms : Nat) (s : TimeoutState A)
    (evs : List (TEvent A)) (h : s.hasCompleted = true) :
    (evs.foldl (timeoutStep ms) s).value = s.value := by
  induction evs generalizing s with
  | nil => rfl
  | cons e rest ih =>
    have he := timeoutStep_completed ms s e h
    rw [List.foldl_cons, ih (timeoutStep ms s e) he.2, he.1]

/-- Processing a source emission always leaves the flag set. -/
theorem timeoutStep_emit_completes {A : Type} (ms : Nat)
    (s : TimeoutState A) (v : A) :
    (timeoutStep ms s (.emit v)).hasCompleted = true := by
  by_cases h : s.hasCompleted <;> simp [timeoutStep, h]

/-- C2 counterexample: a timer-fired resolution is not terminal.  With
seed `0` and `ms = 5`, the event order "timer fires, then the source
emits `1`" first resolves the result to the timeout Error, and then the
emission overwrites it — the value changes again after the first
resolution, contradicting the claim that the losing side is ignored and
the result never changes after the first resolution. -/
theorem c2_timeout_counterexample :
    (runTimeout 5 (0 : Nat) [.timer]).value = .inr (timeoutMsg 5)
      ∧ (runTimeout 5 (0 : Nat) [.timer, .emit 1]).value = .inl 1
      ∧ (runTimeout 5 (0 : Nat) [.timer, .emit 1]).value
          ≠ (runTimeout 5 (0 : Nat) [.timer]).value := by
  refine ⟨rfl, rfl, by decide⟩

/-- C2 amended: the first source emission is terminal — after any event
prefix, processing an emission fixes the result's value for every
possible continuation; if the source emits before the timer fires the
emitted value wins and the timer is cleared; if the timer fires first
the result resolves to a timeout Error, but that resolution is not
terminal (see the counterexample). -/
theorem c2_timeout_amended {A : Type} (ms : Nat) (a0 : A)
    (e1 : List (TEvent A)) (v : A) (e2 : List (TEvent A)) :
    (runTimeout ms a0 (e1 ++ .emit v :: e2)).value
        = (runTimeout ms a0 (e1 ++ [.emit v])).value
      ∧ (runTimeout ms a0 (.emit v :: e2)).value = .inl v
      ∧ (runTimeout ms a0 [.timer]).value = .inr (timeoutMsg ms) := by
  have key : ∀ (l : List (TEvent A)) (rest : List (TEvent A)),
      (runTimeout ms a0 (l ++ .emit v :: rest)).value
        = (runTimeout ms a0 (l ++ [.emit v])).value := by
    intro l rest
    unfold runTimeout
    rw [List.foldl_append, List.foldl_append, List.foldl_cons]
    set s := l.foldl (timeoutStep ms) (mkTimeout a0)
    rw [timeoutRun_completed ms _ rest (timeoutStep_emit_completes ms s v)]
    rfl
  refine ⟨key e1 e2, ?_, rfl⟩
  have h2 := key [] e2
  simp only [List.nil_append] at h2
  rw [h2]
  by_cases h0 : (mkTimeout a0).hasCompleted = true
  · simp [mkTimeout] at h0
  · simp [runTimeout, timeoutStep, mkTimeout]

/-! ### Theorems: C6 -/

/-- C6 counterexample: on the cache-hit path a fetcher invocation still
occurs.  With a store holding data `"d"` at timestamp `0`, `now = 10`
and `ttl = 1000`, the call returns the cached value with
`loading:false`, yet the fetcher has been invoked once (not zero times)
by the construction of the returned Fetch. -/
theorem c6_cache_counterexample :
    (cacheCall (A := String)
        (fun k => if k = "fetch_cache_k" then some "d"
          else if k = "fetch_cache_time_k" then some "17" else none)
        id (fun _ => 0) "k" 1000 10).returned = ⟨some "d", false, none⟩
      ∧ (cacheCall (A := String)
          (fun k => if k = "fetch_cache_k" then some "d"
            else if k = "fetch_cache_time_k" then some "17" else none)
          id (fun _ => 0) "k" 1000 10).fetcherCalls = 1
      ∧ ¬ (cacheCall (A := String)
          (fun k => if k = "fetch_cache_k" then some "d"
            else if k = "fetch_cache_time_k" then some "17" else none)
          id (fun _ => 0) "k" 1000 10).fetcherCalls = 0 := by
  refine ⟨by decide, by decide, by decide⟩

/-- C6 amended: if the persistent store holds a (non-empty) entry for
the key whose stored timestamp is younger than `ttl` at call time, then
`cache(key, ttl)` returns a new Fetch whose value is the cached data
with `loading:false` and installs no mirror subscription — but the
fetcher is nevertheless invoked once, by the construction of the
returned Fetch instance (`fetch(fetcher, deps)` at fetch.ts line 67),
so a network call does occur on the cache-hit path. -/
theorem c6_cache_hit_amended {A : Type} (store : String → Option String)
    (parseData : String → A) (parseTime : String → Int)
    (key : String) (ttl now : Int) (d t : String)
    (hd : store ("fetch_cache_" ++ key) = some d) (hd' : d ≠ "")
    (ht : store ("fetch_cache_time_" ++ key) = some t) (ht' : t ≠ "")
    (hage : now - parseTime t < ttl) :
    cacheCall store parseData parseTime key ttl now
      = { fetcherCalls := 1,
          returned := ⟨some (parseData d), false, none⟩,
          mirrored := false } := by
  simp [cacheCall, hd, ht, hd', ht', hage, fetchConstructCalls,
    fetchConstructValue]

/-! ### Theorems: C5, C10 -/

/-- Unfolding lemmas for `bindStep`. -/
theorem bindStep_emitBase_changed {A B : Type} [DecidableEq A]
    [DecidableEq B] (fSeed : A → B) (w : BindWorld A B) (v : A)
    (hv : v ≠ w.base) :
    bindStep fSeed w (.emitBase v)
      = { base := v, inners := w.inners ++ [fSeed v],
          subscribed := w.subscribed ++ [w.inners.length],
          result := fSeed v } := by
  simp [bindStep, hv]

theorem bindStep_emitBase_same {A B : Type} [DecidableEq A]
    [DecidableEq B] (fSeed : A → B) (w : BindWorld A B) (v : A)
    (hv : v = w.base) :
    bindStep fSeed w (.emitBase v) = w := by
  simp [bindStep, hv]

theorem bindStep_setInner_changed {A B : Type} [DecidableEq A]
    [DecidableEq B] (fSeed : A → B) (w : BindWorld A B) (i : Nat) (v : B)
    (hi : i < w.inners.length) (hv : v ≠ w.inners.get ⟨i, hi⟩) :
    bindStep fSeed w (.setInner i v)
      = { base := w.base, inners := w.inners.set i v,
          subscribed := w.subscribed,
          result := if i ∈ w.subscribed then v else w.result } := by
  simp only [bindStep, hi, ↓reduceDIte, ne_eq, ite_not]
  exact if_neg hv

theorem bindStep_setInner_same {A B : Type} [DecidableEq A]
    [DecidableEq B] (fSeed : A → B) (w : BindWorld A B) (i : Nat) (v : B)
    (hi : i < w.inners.length) (hv : v = w.inners.get ⟨i, hi⟩) :
    bindStep fSeed w (.setInner i v) = w := by
  simp only [bindStep, hi, ↓reduceDIte, ne_eq, ite_not]
  exact if_pos hv

theorem bindStep_setInner_oob {A B : Type} [DecidableEq A]
    [DecidableEq B] (fSeed : A → B) (w : BindWorld A B) (i : Nat) (v : B)
    (hi : ¬ i < w.inners.length) :
    bindStep fSeed w (.setInner i v) = w := by
  simp [bindStep, hi]

/-- A `_set` on an inner effect leaves the subscription list unchanged,
and when no inner subscription exists it cannot reach the result. -/
theorem bindStep_setInner_inert {A B : Type} [DecidableEq A]
    [DecidableEq B] (fSeed : A → B) (w : BindWorld A B) (i : Nat) (v : B)
    (h : w.subscribed = []) :
    (bindStep fSeed w (.setInner i v)).subscribed = []
      ∧ (bindStep fSeed w (.setInner i v)).result = w.result := by
  by_cases hi : i < w.inners.length
  · by_cases hv : v = w.inners.get ⟨i, hi⟩
    · rw [bindStep_setInner_same fSeed w i v hi hv]; exact ⟨h, rfl⟩
    · rw [bindStep_setInner_changed fSeed w i v hi hv]
      refine ⟨h, ?_⟩
      simp [h]
  · rw [bindStep_setInner_oob fSeed w i v hi]; exact ⟨h, rfl⟩

theorem runInnerSets_inert {A B : Type} [DecidableEq A] [DecidableEq B]
    (fSeed : A → B) (w : BindWorld A B) (evs : List (BEvent A B))
    (hsub : w.subscribed = []) (hevs : evs.all isInnerSet = true) :
    (evs.foldl (bindStep fSeed) w).subscribed = []
      ∧ (evs.foldl (bindStep fSeed) w).result = w.result := by
  induction evs generalizing w with
  | nil => exact ⟨hsub, rfl⟩
  | cons e rest ih =>
    simp only [List.all_cons, Bool.and_eq_true] at hevs
    obtain ⟨he, hrest⟩ := hevs
    match e with
    | .emitBase v => simp [isInnerSet] at he
    | .setInner i v =>
      have step := bindStep_setInner_inert fSeed w i v hsub
      have tail := ih (bindStep fSeed w (.setInner i v)) step.1 hrest
      exact ⟨tail.1, by rw [List.foldl_cons, tail.2, step.2]⟩

/-- C5 (monad left identity for Effect): `pure(a).bind(f)` is seeded
with `f(a).value()`, and since nothing ever emits into `pure(a)` — it
has no writer in the expression `pure(a).bind(f)` — the result's value
equals `f(a).value()` at creation and stays so at every later instant,
whatever `_set`s later hit the inner effects. -/
theorem c5_bind_left_identity {A B : Type} [DecidableEq A] [DecidableEq B]
    (a : A) (fSeed : A → B) (events : List (Nat × B)) :
    (runBind a fSeed
        (events.map (fun p => BEvent.setInner p.1 p.2))).result
      = fSeed a := by
  have hall : (events.map (fun p => BEvent.setInner (A := A) p.1 p.2)).all
      isInnerSet = true := by
    simp only [List.all_eq_true, List.mem_map]
    rintro e ⟨p, _, rfl⟩
    rfl
  have h := runInnerSets_inert fSeed (mkBindWorld a fSeed) _ rfl hall
  exact h.2

/-- `bindStep` preserves "every subscribed inner index is positive"
(the seed inner has index 0; emissions subscribe only freshly created
inners, whose indices are at least 1 because the store already holds
the seed inner). -/
theorem bindStep_subscribed_pos {A B : Type} [DecidableEq A]
    [DecidableEq B] (fSeed : A → B) (w : BindWorld A B) (e : BEvent A B)
    (h1 : 1 ≤ w.inners.length) (h2 : ∀ j ∈ w.subscribed, 1 ≤ j) :
    1 ≤ (bindStep fSeed w e).inners.length
      ∧ ∀ j ∈ (bindStep fSeed w e).subscribed, 1 ≤ j := by
  match e with
  | .emitBase v =>
    by_cases hv : v = w.base
    · rw [bindStep_emitBase_same fSeed w v hv]; exact ⟨h1, h2⟩
    · rw [bindStep_emitBase_changed fSeed w v hv]
      refine ⟨by simp, ?_⟩
      intro j hj
      simp only [List.mem_append, List.mem_singleton] at hj
      rcases hj with hj | hj
      · exact h2 j hj
      · omega
  | .setInner i v =>
    by_cases hi : i < w.inners.length
    · by_cases hv : v = w.inners.get ⟨i, hi⟩
      · rw [bindStep_setInner_same fSeed w i v hi hv]; exact ⟨h1, h2⟩
      · rw [bindStep_setInner_changed fSeed w i v hi hv]
        exact ⟨by simpa using h1, h2⟩
    · rw [bindStep_setInner_oob fSeed w i v hi]; exact ⟨h1, h2⟩

/-- C10: the bind result subscribes only to inner effects produced by
source emissions occurring after the bind call — the seed inner
`f(m.value())` (index 0) is never subscribed, under every event
sequence; and if the source never emits again, mutations of that seed
inner are never reflected in the bind result, which keeps its seed
value `f(m.value()).value()`. -/
theorem c10_bind_seed_inner_never_subscribed {A B : Type} [DecidableEq A]
    [DecidableEq B] (a : A) (fSeed : A → B) (events : List (BEvent A B)) :
    (0 ∉ (runBind a fSeed events).subscribed)
      ∧ (events.all isSeedInnerSet = true →
          (runBind a fSeed events).result = fSeed a) := by
  constructor
  · have key : ∀ (w : BindWorld A B), 1 ≤ w.inners.length →
        (∀ j ∈ w.subscribed, 1 ≤ j) →
        ∀ j ∈ (events.foldl (bindStep fSeed) w).subscribed, 1 ≤ j := by
      induction events with
      | nil => intro w _ h2; simpa using h2
      | cons e rest ih =>
        intro w h1 h2
        have step := bindStep_subscribed_pos fSeed w e h1 h2
        exact ih (bindStep fSeed w e) step.1 step.2
    intro h0
    have := key (mkBindWorld a fSeed) (by simp [mkBindWorld])
      (by simp [mkBindWorld]) 0 h0
    omega
  · intro hall
    have hall' : events.all isInnerSet = true := by
      simp only [List.all_eq_true] at hall ⊢
      intro e he
      have := hall e he
      match e with
      | .setInner 0 _ => rfl
      | .setInner (_+1) _ => rfl
      | .emitBase _ => simp [isSeedInnerSet] at this
    exact (runInnerSets_inert fSeed (mkBindWorld a fSeed) events rfl
      hall').2

/-- Witness for C10: binding `pure 0` with the successor constructor and
then mutating the seed inner to `99` subscribes nothing and leaves the
result at `fSeed 0 = 1`. -/
theorem c10_bind_seed_inner_never_subscribed_witness :
    (0 ∉ (runBind (0 : Nat) Nat.succ [.setInner 0 99]).subscribed)
      ∧ (runBind (0 : Nat) Nat.succ [.setInner 0 99]).result = 1 :=
  ⟨(c10_bind_seed_inner_never_subscribed 0 Nat.succ [.setInner 0 99]).1,
    (c10_bind_seed_inner_never_subscribed 0 Nat.succ
      [.setInner 0 99]).2 (by decide)⟩

/-! ### Theorems: C9 -/

/-- The filter plugin's step is extensionally the step of `map(id)`:
because the source stores the new value before notifying, the closure's
fallback `signal.value()` returns the new value itself. -/
theorem setSourceFilter_eq_setSource_id {A : Type} [DecidableEq A]
    (p : A → Bool) (w : MapWorld A A) (v : A) :
    setSourceFilter p w v = setSource id w v := by
  by_cases hv : v = w.source
  · simp [setSourceFilter, setSource, hv]
  · by_cases hp : p v <;> simp [setSourceFilter, setSource, hv, hp]

/-- C9: the container returned by `filterPlugin(p)` is value-equivalent
to `s.map(identity)` under every update sequence — the whole two-cell
world evolves identically, and in particular every update of the source
to a new value `v` is delivered downstream even when `p(v)` is false, so
the filter plugin never suppresses an update. -/
theorem c9_filter_plugin_is_map_id {A : Type} [DecidableEq A]
    (p : A → Bool) (a0 : A) (updates : List A) :
    applyFilterUpdates p a0 updates
        = applyUpdates id (mkMapWorld id a0) updates
      ∧ (applyFilterUpdates p a0 updates).derived
          = (applyFilterUpdates p a0 updates).source := by
  have hseed : mkFilterWorld p a0 = mkMapWorld id a0 := by
    simp [mkFilterWorld, mkMapWorld]
  have hfold : ∀ (l : List A) (w : MapWorld A A),
      l.foldl (setSourceFilter p) w = l.foldl (setSource id) w := by
    intro l
    induction l with
    | nil => intro w; rfl
    | cons u rest ih =>
      intro w
      rw [List.foldl_cons, List.foldl_cons,
        setSourceFilter_eq_setSource_id, ih]
  have heq : applyFilterUpdates p a0 updates
      = applyUpdates id (mkMapWorld id a0) updates := by
    unfold applyFilterUpdates applyUpdates
    rw [hseed, hfold]
  exact ⟨heq, by rw [heq]; exact applyUpdates_invariant id a0 updates⟩

/-! ### Theorems: C7

First, unfolding equations for the mutual `_set`/notify recursion. -/

theorem setCell_zero {V : Type} [Inhabited V] [DecidableEq V]
    (w : World V) (i : Nat) (v : V) : setCell 0 w i v = w := by
  simp [setCell]

theorem setCell_succ_same {V : Type} [Inhabited V] [DecidableEq V]
    (f : Nat) (w : World V) (i : Nat) (v : V) (h : v = w.get i) :
    setCell (f + 1) w i v = w := by
  rw [setCell]; simp [h]

theorem setCell_succ_changed {V : Type} [Inhabited V] [DecidableEq V]
    (f : Nat) (w : World V) (i : Nat) (v : V) (h : ¬ v = w.get i) :
    setCell (f + 1) w i v
      = runSubs f { w with cells := w.cells.set i v }
          (({ w with cells := w.cells.set i v } : World V).subs.filter
            (fun s => s.src == i)) v := by
  rw [setCell]; simp [h]

theorem runSubs_nil {V : Type} [Inhabited V] [DecidableEq V]
    (f : Nat) (w : World V) (v : V) : runSubs f w [] v = w := by
  rw [runSubs]

theorem runSubs_cons {V : Type} [Inhabited V] [DecidableEq V]
    (f : Nat) (w : World V) (s : Sub V) (rest : List (Sub V)) (v : V) :
    runSubs f w (s :: rest) v = runSubs f (runSub f w s v) rest v := by
  rw [runSubs]

theorem runSub_mapSub {V : Type} [Inhabited V] [DecidableEq V]
    (f : Nat) (w : World V) (src tgt : Nat) (g : V → V) (v : V) :
    runSub f w (.mapSub src tgt g) v = setCell f w tgt (g v) := by
  simp [runSub]

/-- A `_set` on a cell nobody listens on only rewrites that cell:
subscriptions and every other cell are untouched. -/
theorem setCell_dead {V : Type} [Inhabited V] [DecidableEq V]
    (fuel : Nat) (w : World V) (t : Nat) (v : V)
    (h : noSubsFrom w.subs t) :
    (setCell fuel w t v).subs = w.subs
      ∧ ∀ j, j ≠ t → (setCell fuel w t v).get j = w.get j := by
  cases fuel with
  | zero => rw [setCell_zero]; exact ⟨rfl, fun _ _ => rfl⟩
  | succ f =>
    by_cases hv : v = w.get t
    · rw [setCell_succ_same f w t v hv]; exact ⟨rfl, fun _ _ => rfl⟩
    · rw [setCell_succ_changed f w t v hv]
      have hfilter : ({ w with cells := w.cells.set t v } : World V).subs.filter
          (fun s => s.src == t) = [] := by
        rw [List.filter_eq_nil_iff]
        intro s hs
        simpa using h s hs
      rw [hfilter, runSubs_nil]
      refine ⟨rfl, ?_⟩
      intro j hj
      show (w.cells.set t v).getD j default = w.cells.getD j default
      simp [List.getD_eq_getD_get?, List.get?_eq_getElem?,
        List.getElem?_set_ne (Ne.symm hj)]

/-- Notifying a batch of map subscriptions whose targets are dead ends
distinct from `R` leaves the subscription list and cell `R` unchanged. -/
theorem runSubs_deadMaps {V : Type} [Inhabited V] [DecidableEq V]
    (R : Nat) (f : Nat) (S0 : List (Sub V)) (v : V) :
    ∀ (l : List (Sub V)) (w : World V), w.subs = S0 →
      (∀ s ∈ l, ∃ src t g, s = Sub.mapSub src t g ∧ t ≠ R
        ∧ noSubsFrom S0 t) →
      (runSubs f w l v).subs = S0 ∧ (runSubs f w l v).get R = w.get R := by
  intro l
  induction l with
  | nil =>
    intro w hw _
    rw [runSubs_nil]; exact ⟨hw, rfl⟩
  | cons s rest ih =>
    intro w hw hl
    obtain ⟨src, t, g, rfl, htR, hdead⟩ := hl s (List.mem_cons_self s rest)
    rw [runSubs_cons, runSub_mapSub]
    have step := setCell_dead f w t (g v) (hw ▸ hdead)
    have tail := ih (setCell f w t (g v)) (step.1.trans hw)
      (fun x hx => hl x (List.mem_cons_of_mem _ hx))
    exact ⟨tail.1, tail.2.trans (step.2 R (Ne.symm htR))⟩

/-- A post-construction `_set` on an input cell (index `< k`) of a
world whose subscriptions have the `sequence` shape leaves the
subscription list and the result cell `R` unchanged, for every fuel. -/
theorem setCell_input_preserves {V : Type} [Inhabited V] [DecidableEq V]
    (k R fuel : Nat) (w : World V) (i : Nat) (v : V)
    (hi : i < k) (hk : k ≤ R) (hQ : SeqSubsOK k R w.subs) :
    (setCell fuel w i v).subs = w.subs
      ∧ (setCell fuel w i v).get R = w.get R := by
  cases fuel with
  | zero => rw [setCell_zero]; exact ⟨rfl, rfl⟩
  | succ f =>
    by_cases hv : v = w.get i
    · rw [setCell_succ_same f w i v hv]; exact ⟨rfl, rfl⟩
    · rw [setCell_succ_changed f w i v hv]
      have hget : ({ w with cells := w.cells.set i v } : World V).get R
          = w.get R := by
        show (w.cells.set i v).getD R default = w.cells.getD R default
        have hiR : i ≠ R := by omega
        simp [List.getD_eq_getD_get?, List.get?_eq_getElem?,
          List.getElem?_set_ne hiR]
      have hl : ∀ s ∈ ({ w with cells := w.cells.set i v } : World V).subs.filter
          (fun s => s.src == i),
          ∃ src t g, s = Sub.mapSub src t g ∧ t ≠ R
            ∧ noSubsFrom w.subs t := by
        intro s hs
        rw [List.mem_filter] at hs
        have hsrc : s.src = i := by simpa using hs.2
        exact hQ s hs.1 (by rw [hsrc]; exact hi)
      have main := runSubs_deadMaps R f w.subs v
        (({ w with cells := w.cells.set i v } : World V).subs.filter
          (fun s => s.src == i))
        ({ w with cells := w.cells.set i v } : World V) rfl hl
      exact ⟨main.1, main.2.trans hget⟩

/-- Any sequence of emissions on the input cells leaves the
subscription list and the result cell of a `sequence` world unchanged. -/
theorem applySeqEvents_preserves {A : Type} [DecidableEq A]
    (k R : Nat) (hk : k ≤ R) :
    ∀ (events : List (Nat × SeqVal A × Nat)) (w : World (SeqVal A)),
      SeqSubsOK k R w.subs → (∀ e ∈ events, e.1 < k) →
      (applySeqEvents w events).subs = w.subs
        ∧ (applySeqEvents w events).get R = w.get R := by
  intro events
  induction events with
  | nil => intro w _ _; exact ⟨rfl, rfl⟩
  | cons e rest ih =>
    intro w hQ hev
    have he : e.1 < k := hev e (List.mem_cons_self e rest)
    have step := setCell_input_preserves k R e.2.2 w e.1 e.2.1 he hk hQ
    have tail := ih (setCell e.2.2 w e.1 e.2.1) (step.1 ▸ hQ)
      (fun x hx => hev x (List.mem_cons_of_mem _ hx))
    unfold applySeqEvents at tail ⊢
    rw [List.foldl_cons]
    exact ⟨tail.1.trans step.1, tail.2.trans step.2⟩

/-- The concrete effect of one `reduce` step of `sequence` on the
world: two cells are appended (the map-derived inner cell and the
result effect, both seeded with the pushed array) and two
subscriptions are installed (the `map` subscription on the input cell
and the `bindBase` subscription on the accumulator). -/
theorem seqBindStep_eq {A : Type} [DecidableEq A]
    (accId : Nat) (w : World (SeqVal A)) (c : Nat) :
    seqBindStep (accId, w) c
      = (w.cells.length + 1,
        { cells := w.cells ++ [push (w.get accId) (w.get c),
            push (w.get accId) (w.get c)],
          subs := w.subs
            ++ [Sub.mapSub c w.cells.length (push (w.get accId)),
              Sub.bindBase accId (w.cells.length + 1)
                (fun arr2 => EffExpr.mapOf c (push arr2))] }) := by
  have hmid : (w.cells ++ [push (w.get accId) (w.get c)]).getD
      w.cells.length default = push (w.get accId) (w.get c) := by
    rw [List.getD_append_right _ _ _ _ (le_refl _), Nat.sub_self]
    rfl
  simp only [seqBindStep, evalExpr, World.alloc, World.addSub, World.get]
  refine Prod.ext ?_ ?_
  · simp
  · simp only [World.get] at hmid
    simp [hmid, List.append_assoc]

/-- Reading an input cell of a `sequence` world under construction. -/
theorem consInv_get_input {A : Type} (vs : List A) (extra : List (SeqVal A))
    (S : List (Sub (SeqVal A))) (m : Nat) (hm : m < vs.length) :
    (World.mk (vs.map Sum.inl ++ extra) S).get m
      = Sum.inl (vs.get ⟨m, hm⟩) := by
  have hm' : m < (vs.map (Sum.inl : A → SeqVal A)).length := by simpa using hm
  show (vs.map (Sum.inl : A → SeqVal A) ++ extra).getD m default = _
  rw [List.getD_append _ _ _ _ hm', List.getD_eq_getElem _ _ hm',
    List.getElem_map]
  simp

/-- One `reduce` step preserves the construction invariant. -/
theorem consInv_step {A : Type} [DecidableEq A] (vs : List A) (m : Nat)
    (p : Nat × World (SeqVal A)) (hm : m < vs.length)
    (hInv : ConsInv vs m p) : ConsInv vs (m + 1) (seqBindStep p m) := by
  obtain ⟨accId, w⟩ := p
  obtain ⟨hlen, ⟨extra, hcells⟩, hacc, hk1, hk2, hsubs⟩ := hInv
  replace hlen : w.cells.length = vs.length + 1 + 2 * m := hlen
  replace hcells : w.cells = vs.map Sum.inl ++ extra := hcells
  replace hacc : w.get accId = Sum.inr (vs.take m) := hacc
  replace hk1 : vs.length ≤ accId := hk1
  replace hk2 : accId < w.cells.length := hk2
  replace hsubs : ConsSubsOK vs.length w.cells.length accId w.subs := hsubs
  rw [seqBindStep_eq]
  have hgetm : w.get m = Sum.inl (vs.get ⟨m, hm⟩) := by
    have hw : w = World.mk (vs.map Sum.inl ++ extra) w.subs := by
      cases w; simp_all
    rw [hw]
    exact consInv_get_input vs extra w.subs m hm
  have hseed : push (w.get accId) (w.get m) = Sum.inr (vs.take (m + 1)) := by
    rw [hacc, hgetm]
    show Sum.inr (vs.take m ++ [vs.get ⟨m, hm⟩]) = _
    rw [List.take_succ]
    simp [List.getElem?_eq_getElem hm]
  have hlen2 : (w.cells ++ [push (w.get accId) (w.get m),
      push (w.get accId) (w.get m)]).length = w.cells.length + 2 := by
    simp
  refine ⟨?_, ⟨extra ++ [push (w.get accId) (w.get m),
    push (w.get accId) (w.get m)], ?_⟩, ?_, ?_, ?_, ?_⟩
  · show (w.cells ++ [push (w.get accId) (w.get m),
        push (w.get accId) (w.get m)]).length = vs.length + 1 + 2 * (m + 1)
    rw [hlen2]
    omega
  · show w.cells ++ [push (w.get accId) (w.get m),
        push (w.get accId) (w.get m)]
      = vs.map Sum.inl ++ (extra ++ [push (w.get accId) (w.get m),
        push (w.get accId) (w.get m)])
    rw [hcells, List.append_assoc]
  · show (w.cells ++ [push (w.get accId) (w.get m),
        push (w.get accId) (w.get m)]).getD (w.cells.length + 1) default
      = Sum.inr (vs.take (m + 1))
    rw [List.getD_append_right _ _ _ _ (by omega)]
    have h1 : w.cells.length + 1 - w.cells.length = 1 := by omega
    rw [h1]
    simpa using hseed
  · show vs.length ≤ w.cells.length + 1
    omega
  · show w.cells.length + 1 < (w.cells ++ [push (w.get accId) (w.get m),
        push (w.get accId) (w.get m)]).length
    rw [hlen2]
    omega
  · -- the subscription-shape invariant for the extended world
    show ConsSubsOK vs.length (w.cells ++ [push (w.get accId) (w.get m),
        push (w.get accId) (w.get m)]).length (w.cells.length + 1)
      (w.subs ++ [Sub.mapSub m w.cells.length (push (w.get accId)),
        Sub.bindBase accId (w.cells.length + 1)
          (fun arr2 => EffExpr.mapOf m (push arr2))])
    rw [hlen2]
    intro s hs
    rw [List.mem_append, List.mem_cons, List.mem_singleton] at hs
    rcases hs with hold | rfl | rfl
    · rcases hsubs s hold with
        ⟨src, t, g, rfl, h1, h2, h3, h4, h5⟩ | ⟨src, r, f, rfl, h1, h2⟩
      · refine Or.inl ⟨src, t, g, rfl, h1, h2, by omega, by omega, ?_⟩
        intro s' hs'
        rw [List.mem_append, List.mem_cons, List.mem_singleton] at hs'
        rcases hs' with h' | rfl | rfl
        · exact h5 s' h'
        · show m ≠ t
          omega
        · show accId ≠ t
          exact Ne.symm h4
      · exact Or.inr ⟨src, r, f, rfl, h1, by omega⟩
    · refine Or.inl ⟨m, w.cells.length, push (w.get accId), rfl, hm,
        by omega, by omega, by omega, ?_⟩
      intro s' hs'
      rw [List.mem_append, List.mem_cons, List.mem_singleton] at hs'
      rcases hs' with h' | rfl | rfl
      · rcases hsubs s' h' with
          ⟨src, t, g, rfl, g1, g2, g3, g4, g5⟩ | ⟨src, r, f, rfl, g1, g2⟩
        · show src ≠ w.cells.length
          omega
        · show src ≠ w.cells.length
          omega
      · show m ≠ w.cells.length
        omega
      · show accId ≠ w.cells.length
        omega
    · exact Or.inr ⟨accId, w.cells.length + 1, _, rfl, hk1, by omega⟩


/-- The construction invariant holds all along the `reduce` fold. -/
theorem consInv_fold {A : Type} [DecidableEq A] (vs : List A) (m : Nat)
    (hm : m ≤ vs.length) :
    ConsInv vs m ((List.range m).foldl seqBindStep
      (vs.length, World.mk (vs.map Sum.inl ++ [Sum.inr []]) [])) := by
  induction m with
  | zero =>
    refine ⟨by simp, ⟨[Sum.inr []], rfl⟩, ?_, by simp, by simp, ?_⟩
    · show ((vs.map Sum.inl ++ [Sum.inr []]).getD vs.length default
        : SeqVal A) = Sum.inr (vs.take 0)
      rw [List.getD_append_right]
      · simp
      · simp
    · intro s hs
      cases hs
  | succ n ih =>
    have hn : n ≤ vs.length := by omega
    rw [List.range_succ, List.foldl_append, List.foldl_cons, List.foldl_nil]
    have step := consInv_step vs n
      ((List.range n).foldl seqBindStep
        (vs.length, World.mk (vs.map Sum.inl ++ [Sum.inr []]) []))
      (by omega) (ih hn)
    exact step

theorem mkSeqWorld_eq_fold {A : Type} [DecidableEq A] (vs : List A) :
    mkSeqWorld vs = (List.range vs.length).foldl seqBindStep
      (vs.length, World.mk (vs.map Sum.inl ++ [Sum.inr []]) []) := by
  simp [mkSeqWorld, World.alloc]

/-- The construction invariant's subscription shape gives the
post-construction shape needed for event preservation. -/
theorem consSubsOK_to_seqSubsOK {V : Type} (k len R : Nat)
    (S : List (Sub V)) (h : ConsSubsOK k len R S) : SeqSubsOK k R S := by
  intro s hs hsrc
  rcases h s hs with
    ⟨src, t, g, rfl, _, _, _, htR, hdead⟩ | ⟨src, r, f, rfl, hks, _⟩
  · exact ⟨src, t, g, rfl, htR, hdead⟩
  · exact absurd hsrc (by simp [Sub.src]; omega)

/-- C7: `sequence(effects)` produces an Effect whose value is the
array of the input effects' values captured at call time, and later
emissions on the input effects — any values, any notification fuel —
never change the already-produced sequence result. -/
theorem c7_sequence_snapshot {A : Type} [DecidableEq A] (vs : List A)
    (events : List (Nat × SeqVal A × Nat))
    (hev : ∀ e ∈ events, e.1 < vs.length) :
    (mkSeqWorld vs).2.get (mkSeqWorld vs).1 = Sum.inr vs
      ∧ (applySeqEvents (mkSeqWorld vs).2 events).get (mkSeqWorld vs).1
          = Sum.inr vs := by
  have hfold := consInv_fold vs vs.length (le_refl _)
  rw [← mkSeqWorld_eq_fold] at hfold
  obtain ⟨hlen, _, hval, hk1, hk2, hsubs⟩ := hfold
  have hvs : vs.take vs.length = vs := List.take_length vs
  rw [hvs] at hval
  refine ⟨hval, ?_⟩
  have hQ := consSubsOK_to_seqSubsOK vs.length (mkSeqWorld vs).2.cells.length
    (mkSeqWorld vs).1 (mkSeqWorld vs).2.subs hsubs
  have hpres := applySeqEvents_preserves vs.length (mkSeqWorld vs).1 hk1
    events (mkSeqWorld vs).2 hQ hev
  exact hpres.2.trans hval

/-- Witness for C7: `sequence` of two effects holding `1` and `2`
snapshots `[1, 2]`, and an emission of `7` on the first input effect
leaves the result at `[1, 2]`. -/
theorem c7_sequence_snapshot_witness :
    (mkSeqWorld [1, 2]).2.get (mkSeqWorld [1, 2]).1 = Sum.inr [1, 2]
      ∧ (applySeqEvents (mkSeqWorld [1, 2]).2
          [(0, Sum.inl 7, 5)]).get (mkSeqWorld [1, 2]).1
        = Sum.inr [1, 2] :=
  c7_sequence_snapshot [1, 2] [(0, Sum.inl 7, 5)] (by simp)

/-- Witness for the amended C6 theorem at the counterexample's store. -/
theorem c6_cache_hit_amended_witness :
    cacheCall (A := String)
        (fun k => if k = "fetch_cache_k" then some "d"
          else if k = "fetch_cache_time_k" then some "17" else none)
        id (fun _ => 0) "k" 1000 10
      = { fetcherCalls := 1,
          returned := ⟨some "d", false, none⟩,
          mirrored := false } :=
  c6_cache_hit_amended
    (fun k => if k = "fetch_cache_k" then some "d"
      else if k = "fetch_cache_time_k" then some "17" else none)
    id (fun _ => 0) "k" 1000 10 "d" "17"
    (by decide) (by decide) (by decide) (by decide) (by decide)

end Resig
